import Mathlib

/-!
Verification of the makemore bigram-counting script.

Shallow embedding of `src/jupyter/02-makemore/makemore.py`:

* `words` (the input corpus) is modelled as a `List (List Char)`, one inner
  list per line of the input file;
* `chars`, `stoi`, `itos` follow lines 7-10 of the script
  (`chars = sorted(list(set("".join(words))))`, the dict comprehension for
  `stoi` followed by the overriding assignment `stoi["."] = 0`, and the
  inverted dict `itos`);
* the count tensor `N` (line 6 and the counting loop, lines 13-16) is
  modelled as a function `ℕ → ℕ → ℕ`; the tensor allocated by the script is
  the restriction of this function to indices below `tableDim = 27`;
* the probability row `p` (lines 28-29) is modelled over `ℚ`, standing in
  for the exact value of the float computation; division by zero is the
  junk value `0` (the float code produces NaN there, equally not a
  probability distribution).

Dictionary lookups are fallible in Python (`KeyError`), so `stoi` and
`itos` return `Option`; the total function `stoiFun` used inside the
counting loop is justified by `stoi_eq_stoiFun` together with the theorem
that every character reached by the loop has an assigned index.
-/

namespace Makemore

/-- Line 7: `chars = sorted(list(set("".join(words))))` — the distinct
characters of the corpus in increasing order (`dedup` plays the role of
`set`, `insertionSort` the role of `sorted`). -/
def chars (words : List (List Char)) : List Char :=
  (words.flatten.dedup).insertionSort (· ≤ ·)

/-- Lines 8-9: the dict `stoi = { x:(i+1) for i, x in enumerate(chars)}`
followed by `stoi["."] = 0`.  A lookup of a key that is in the dict yields
`some`, any other lookup raises `KeyError`, i.e. `none`. -/
def stoi (words : List (List Char)) (c : Char) : Option ℕ :=
  if c = '.' then some 0
  else if c ∈ chars words then some ((chars words).indexOf c + 1) else none

/-- Line 10: `itos = { i:s for s,i in stoi.items() }`.  Key `0` holds `'.'`;
key `k+1` holds `chars[k]` unless that character is `'.'` itself (in which
case the assignment `stoi["."] = 0` removed the binding `'.' ↦ k+1`, so no
key `k+1` exists). -/
def itos (words : List (List Char)) (i : ℕ) : Option Char :=
  if i = 0 then some '.'
  else ((chars words)[i - 1]?).bind fun c => if c = '.' then none else some c

/-- The value `stoi` yields on every key the counting loop actually looks
up (every such lookup succeeds, see `stoi_eq_stoiFun`). -/
def stoiFun (words : List (List Char)) (c : Char) : ℕ :=
  if c = '.' then 0 else (chars words).indexOf c + 1

/-- Line 14: `c = ["."] + list(w) + ["."]` — the word wrapped in boundary
symbols. -/
def wrapped (w : List Char) : List Char :=
  '.' :: (w ++ ['.'])

/-- Line 15: the index range `range(len(c))[:-1]` paired with its successor,
i.e. the adjacent pairs `(c[i], c[i+1])` of the wrapped word. -/
def pairs (w : List Char) : List (Char × Char) :=
  (wrapped w).zip (wrapped w).tail

/-- Line 16 as a state transformer: `N[a, b] += 1`. -/
def countStep (f : ℕ → ℕ → ℕ) (a b : ℕ) : ℕ → ℕ → ℕ :=
  fun i j => if i = a ∧ j = b then f i j + 1 else f i j

/-- One iteration of the outer loop of lines 13-16: fold the increments of
a single word `w` into the table `f`. -/
def processWord (words : List (List Char)) (f : ℕ → ℕ → ℕ) (w : List Char) : ℕ → ℕ → ℕ :=
  (pairs w).foldl (fun g q => countStep g (stoiFun words q.1) (stoiFun words q.2)) f

/-- Lines 6 and 13-16: the count tensor after the double loop, starting
from `torch.zeros`.  `N words i j` is the value of cell `[i, j]`. -/
def N (words : List (List Char)) : ℕ → ℕ → ℕ :=
  words.foldl (processWord words) (fun _ _ => 0)

/-- The index pairs the counting loop writes while handling one word. -/
def idxPairs (words : List (List Char)) (w : List Char) : List (ℕ × ℕ) :=
  (pairs w).map fun q => (stoiFun words q.1, stoiFun words q.2)

/-- Folding a list of already-computed index pairs into a table. -/
def applyPairs (f : ℕ → ℕ → ℕ) (l : List (ℕ × ℕ)) : ℕ → ℕ → ℕ :=
  l.foldl (fun g q => countStep g q.1 q.2) f

/-- Declarative bigram count, following the wording of the specification:
the number of times the character `b` immediately follows the character `a`
across all words, each word wrapped in boundary symbols. -/
def followCount (words : List (List Char)) (a b : Char) : ℕ :=
  (words.map fun w => (pairs w).count (a, b)).sum

/-- The characters the counting loop may look up: the boundary symbol and
every character of the corpus. -/
def InVocab (words : List (List Char)) (c : Char) : Prop :=
  c = '.' ∨ c ∈ chars words

/-- Line 6: the tensor is allocated with shape `(27, 27)`. -/
def tableDim : ℕ := 27

/-- The sum of row 0 of the tensor, `N[0].sum()` on line 29. -/
def row0sum (words : List (List Char)) : ℕ :=
  ∑ j in Finset.range tableDim, N words 0 j

/-- Lines 28-29: `p = N[0].float(); p = p / p.sum()` — entry `j` of the
normalized first row, over exact arithmetic. -/
def p (words : List (List Char)) (j : ℕ) : ℚ :=
  (N words 0 j : ℚ) / (row0sum words : ℚ)

/-- Line 22: the two-character label `c = itos[i] + itos[j]` drawn into
cell `(i, j)` by the renderer; either dict lookup may raise `KeyError`
(`none`).  (The read `N[i, j].item()` on line 23 is always in bounds of
the `27 × 27` tensor, and the `plt` calls are side effects outside the
model.) -/
def cellLabel (words : List (List Char)) (i j : ℕ) : Option (List Char) :=
  (itos words i).bind fun a => (itos words j).map fun b => [a, b]

/-- Lines 20-24: the renderer's annotation loop computes the label of
every cell `(i, j)` for `i, j in range(27)`, in row-major order; the
whole pass fails with the first `KeyError` it hits. -/
def renderLabels (words : List (List Char)) : Option (List (List Char)) :=
  ((List.range tableDim).flatMap fun i =>
    (List.range tableDim).map fun j => (i, j)).mapM fun q => cellLabel words q.1 q.2

/-- Lines 18-29 in program order: the renderer runs before the
probability extractor, so an unhandled `KeyError` in the annotation loop
stops the script (`none`) and lines 28-29 are never reached; otherwise
the script ends with the probability row. -/
def script (words : List (List Char)) : Option (ℕ → ℚ) :=
  (renderLabels words).map fun _ => p words

example : chars [['a']] = ['a'] := by decide
example : chars [['b', 'a'], ['a']] = ['a', 'b'] := by decide
example : stoi [['a']] 'a' = some 1 := by decide
example : stoi [['a']] '.' = some 0 := by decide
example : itos [['a']] 1 = some 'a' := by decide
example : N [['a']] 0 1 = 1 := by decide
example : N [['a']] 1 0 = 1 := by decide
example : N [['a']] 0 0 = 0 := by decide
example : row0sum [['a']] = 1 := by decide
example : p [['a']] 1 = 1 := by
  show (N [['a']] 0 1 : ℚ) / (row0sum [['a']] : ℚ) = 1
  norm_num [show N [['a']] 0 1 = 1 from by decide, show row0sum [['a']] = 1 from by decide]

/-! ### Facts about the vocabulary -/

theorem chars_sorted (words : List (List Char)) : List.Sorted (· ≤ ·) (chars words) :=
  List.sorted_insertionSort _ _

theorem chars_nodup (words : List (List Char)) : (chars words).Nodup :=
  (List.perm_insertionSort _ _).nodup_iff.mpr (List.nodup_dedup _)

theorem mem_chars {words : List (List Char)} {c : Char} :
    c ∈ chars words ↔ c ∈ words.flatten := by
  rw [chars, (List.perm_insertionSort _ _).mem_iff, List.mem_dedup]

theorem stoi_dot (words : List (List Char)) : stoi words '.' = some 0 := by
  simp [stoi]

theorem stoi_eq_stoiFun {words : List (List Char)} {c : Char} (h : InVocab words c) :
    stoi words c = some (stoiFun words c) := by
  rcases h with h | h
  · subst h; simp [stoi, stoiFun]
  · by_cases hdot : c = '.'
    · subst hdot; simp [stoi, stoiFun]
    · simp [stoi, stoiFun, hdot, h]

theorem stoi_some_imp {words : List (List Char)} {c : Char} {i : ℕ}
    (h : stoi words c = some i) : stoiFun words c = i ∧ InVocab words c := by
  by_cases hdot : c = '.'
  · subst hdot
    simp [stoi] at h
    simp [stoiFun, ← h, InVocab]
  · by_cases hm : c ∈ chars words
    · simp [stoi, hdot, hm] at h
      simp [stoiFun, hdot, h, InVocab, hm]
    · simp [stoi, hdot, hm] at h

theorem stoiFun_lt {words : List (List Char)} {c : Char} {n : ℕ}
    (hn : (chars words).length + 1 ≤ n) (h : InVocab words c) : stoiFun words c < n := by
  by_cases hdot : c = '.'
  · subst hdot
    rw [show stoiFun words '.' = 0 from by simp [stoiFun]]
    omega
  · rcases h with h | h
    · exact absurd h hdot
    · have := List.indexOf_lt_length.mpr h
      simp only [stoiFun, if_neg hdot]
      omega

theorem stoiFun_inj {words : List (List Char)} {c d : Char}
    (hc : InVocab words c) (hd : InVocab words d)
    (h : stoiFun words c = stoiFun words d) : c = d := by
  by_cases hc' : c = '.' <;> by_cases hd' : d = '.'
  · rw [hc', hd']
  · rcases hd with hd | hd
    · exact absurd hd hd'
    · simp [stoiFun, hc', hd'] at h
  · rcases hc with hc | hc
    · exact absurd hc hc'
    · simp [stoiFun, hc', hd'] at h
  · rcases hc with hc | hc
    · exact absurd hc hc'
    rcases hd with hd | hd
    · exact absurd hd hd'
    simp only [stoiFun, if_neg hc', if_neg hd', Nat.add_right_cancel_iff] at h
    exact (List.indexOf_inj hc hd).mp h

/-! ### Facts about the wrapped words and their adjacent pairs -/

theorem mem_wrapped {w : List Char} {c : Char} (h : c ∈ wrapped w) :
    c = '.' ∨ c ∈ w := by
  simp only [wrapped, List.mem_cons, List.mem_append, List.mem_singleton] at h
  tauto

theorem mem_pairs_fst_snd {w : List Char} {q : Char × Char} (h : q ∈ pairs w) :
    q.1 ∈ wrapped w ∧ q.2 ∈ wrapped w := by
  obtain ⟨a, b⟩ := q
  have := List.of_mem_zip h
  exact ⟨this.1, List.mem_of_mem_tail this.2⟩

theorem inVocab_of_mem_pairs {words : List (List Char)} {w : List Char} {q : Char × Char}
    (hw : w ∈ words) (hq : q ∈ pairs w) :
    InVocab words q.1 ∧ InVocab words q.2 := by
  have h := mem_pairs_fst_snd hq
  constructor
  · rcases mem_wrapped h.1 with h1 | h1
    · exact Or.inl h1
    · exact Or.inr (mem_chars.mpr (List.mem_flatten.mpr ⟨w, hw, h1⟩))
  · rcases mem_wrapped h.2 with h2 | h2
    · exact Or.inl h2
    · exact Or.inr (mem_chars.mpr (List.mem_flatten.mpr ⟨w, hw, h2⟩))

theorem pairs_length (w : List Char) : (pairs w).length = w.length + 1 := by
  rw [pairs, wrapped, List.tail_cons, List.length_zip]
  simp only [List.length_cons, List.length_append, List.length_singleton, List.length_nil]
  omega

/-! ### The fold characterization of the count table -/

theorem countStep_apply (f : ℕ → ℕ → ℕ) (a b i j : ℕ) :
    countStep f a b i j = f i j + if i = a ∧ j = b then 1 else 0 := by
  by_cases h : i = a ∧ j = b <;> simp [countStep, h]

theorem processWord_eq_applyPairs (words : List (List Char)) (f : ℕ → ℕ → ℕ) (w : List Char) :
    processWord words f w = applyPairs f (idxPairs words w) := by
  simp [processWord, applyPairs, idxPairs, List.foldl_map]

theorem applyPairs_apply (l : List (ℕ × ℕ)) (f : ℕ → ℕ → ℕ) (i j : ℕ) :
    applyPairs f l i j = f i j + l.count (i, j) := by
  induction l generalizing f with
  | nil => simp [applyPairs]
  | cons q l ih =>
    obtain ⟨a, b⟩ := q
    show applyPairs (countStep f a b) l i j = _
    rw [ih, countStep_apply, List.count_cons]
    by_cases h : i = a ∧ j = b
    · obtain ⟨rfl, rfl⟩ := h
      simp
      omega
    · have hne : ((a, b) = (i, j)) → False := by
        simp only [Prod.mk.injEq]
        tauto
      simp only [if_neg h, beq_iff_eq, if_neg hne]
      omega

theorem N_count (words : List (List Char)) (i j : ℕ) :
    N words i j = ((words.map (idxPairs words)).flatten).count (i, j) := by
  have h1 : N words = applyPairs (fun _ _ => 0) ((words.map (idxPairs words)).flatten) := by
    rw [N, applyPairs, List.foldl_flatten, List.foldl_map]
    congr 1
    funext f w
    exact processWord_eq_applyPairs words f w
  rw [h1, applyPairs_apply]
  omega

theorem N_sum (words : List (List Char)) (i j : ℕ) :
    N words i j = (words.map fun w => (idxPairs words w).count (i, j)).sum := by
  rw [N_count, List.count_flatten, List.map_map]
  rfl

/-! ### Summing the whole table -/

theorem sum_ite_pair (n a b : ℕ) (ha : a < n) (hb : b < n) :
    (∑ i in Finset.range n, ∑ j in Finset.range n, if (a, b) = (i, j) then 1 else 0) = 1 := by
  have h1 : ∀ i : ℕ, (∑ j in Finset.range n, if (a, b) = (i, j) then (1 : ℕ) else 0)
      = if a = i then 1 else 0 := by
    intro i
    by_cases hia : a = i
    · subst hia
      rw [if_pos rfl]
      calc (∑ j in Finset.range n, if (a, b) = (a, j) then (1 : ℕ) else 0)
          = ∑ j in Finset.range n, if b = j then (1 : ℕ) else 0 := by
            apply Finset.sum_congr rfl
            intro j _
            simp
        _ = 1 := by rw [Finset.sum_ite_eq]; simp [hb]
    · rw [if_neg hia]
      apply Finset.sum_eq_zero
      intro j _
      rw [if_neg]
      simp only [Prod.mk.injEq]
      tauto
  rw [Finset.sum_congr rfl fun i _ => h1 i, Finset.sum_ite_eq]
  simp [ha]

theorem sum_count_of_bounded (n : ℕ) (L : List (ℕ × ℕ))
    (h : ∀ q ∈ L, q.1 < n ∧ q.2 < n) :
    (∑ i in Finset.range n, ∑ j in Finset.range n, L.count (i, j)) = L.length := by
  induction L with
  | nil => simp
  | cons q L ih =>
    obtain ⟨a, b⟩ := q
    have hq := h (a, b) (List.mem_cons_self _ _)
    have hcount : ∀ i j : ℕ,
        List.count (i, j) ((a, b) :: L) = List.count (i, j) L + if (a, b) = (i, j) then 1 else 0 := by
      intro i j
      rw [List.count_cons]
      congr 1
      by_cases hh : (a, b) = (i, j) <;> simp [hh]
    calc (∑ i in Finset.range n, ∑ j in Finset.range n, List.count (i, j) ((a, b) :: L))
        = (∑ i in Finset.range n, ∑ j in Finset.range n,
            (List.count (i, j) L + if (a, b) = (i, j) then 1 else 0)) := by
          apply Finset.sum_congr rfl
          intro i _
          apply Finset.sum_congr rfl
          intro j _
          exact hcount i j
      _ = (∑ i in Finset.range n, ∑ j in Finset.range n, List.count (i, j) L)
          + (∑ i in Finset.range n, ∑ j in Finset.range n, if (a, b) = (i, j) then 1 else 0) := by
          rw [← Finset.sum_add_distrib]
          apply Finset.sum_congr rfl
          intro i _
          rw [Finset.sum_add_distrib]
      _ = L.length + 1 := by
          rw [ih fun q hq => h q (List.mem_cons_of_mem _ hq), sum_ite_pair n a b hq.1 hq.2]
      _ = ((a, b) :: L).length := by simp

theorem idxPairs_bounded {words : List (List Char)}
    (h : (chars words).length + 1 ≤ tableDim) :
    ∀ q ∈ (words.map (idxPairs words)).flatten, q.1 < tableDim ∧ q.2 < tableDim := by
  intro q hq
  rw [List.mem_flatten] at hq
  obtain ⟨lw, hlw, hqlw⟩ := hq
  rw [List.mem_map] at hlw
  obtain ⟨w, hw, rfl⟩ := hlw
  rw [idxPairs, List.mem_map] at hqlw
  obtain ⟨qq, hqq, rfl⟩ := hqlw
  have hv := inVocab_of_mem_pairs hw hqq
  exact ⟨stoiFun_lt h hv.1, stoiFun_lt h hv.2⟩

theorem sum_length_add_one (words : List (List Char)) :
    (words.map fun w => w.length + 1).sum = words.flatten.length + words.length := by
  induction words with
  | nil => simp
  | cons w ws ih => simp [ih]; omega

/-! ### Permutation congruence -/

theorem flatten_perm {α : Type} {words words' : List (List α)} (h : words.Perm words') :
    words.flatten.Perm words'.flatten := by
  have := h.flatMap_right id
  simpa [List.flatMap_id] using this

theorem chars_perm_congr {words words' : List (List Char)} (h : words.Perm words') :
    chars words = chars words' := by
  have hdedup := (flatten_perm h).dedup
  exact List.eq_of_perm_of_sorted
    ((List.perm_insertionSort _ _).trans (hdedup.trans (List.perm_insertionSort _ _).symm))
    (chars_sorted words) (chars_sorted words')

/-! ### The claims -/

/-- C1: after the counting pass, cell `[i, j]` of the count matrix equals
the number of times the character with index `j` immediately follows the
character with index `i`, each word being wrapped in boundary symbols
before counting. -/
theorem count_matrix_bigram_invariant (words : List (List Char)) (a b : Char) (i j : ℕ)
    (ha : stoi words a = some i) (hb : stoi words b = some j) :
    N words i j = followCount words a b := by
  obtain ⟨hfa, hva⟩ := stoi_some_imp ha
  obtain ⟨hfb, hvb⟩ := stoi_some_imp hb
  rw [N_sum, followCount]
  congr 1
  apply List.map_congr_left
  intro w hw
  rw [idxPairs, List.count_eq_countP, List.countP_map, List.count_eq_countP]
  apply List.countP_congr
  intro q hq
  obtain ⟨c, d⟩ := q
  have hv := inVocab_of_mem_pairs hw hq
  simp only [Function.comp_apply, beq_iff_eq, Prod.mk.injEq, decide_eq_decide]
  constructor
  · rintro ⟨h1, h2⟩
    exact ⟨stoiFun_inj hv.1 hva (h1.trans hfa.symm), stoiFun_inj hv.2 hvb (h2.trans hfb.symm)⟩
  · rintro ⟨rfl, rfl⟩
    exact ⟨hfa, hfb⟩

/-- C1 witness: on the corpus `["a"]`, with `stoi "a" = 1` and
`stoi "." = 0`, cell `[1, 0]` equals the number of times `'.'` follows
`'a'`. -/
theorem count_matrix_bigram_invariant_witness :
    stoi [['a']] 'a' = some 1 ∧ stoi [['a']] '.' = some 0 ∧
      N [['a']] 1 0 = followCount [['a']] 'a' '.' :=
  ⟨by decide, by decide,
    count_matrix_bigram_invariant [['a']] 'a' '.' 1 0 (by decide) (by decide)⟩

/-- C2: whenever the corpus fits the fixed `27 × 27` table (at most 26
distinct characters, so the counting pass finishes), the sum of all cells
of the final count matrix equals the total number of characters across all
words plus the number of words. -/
theorem count_matrix_total_sum (words : List (List Char))
    (h : (chars words).length + 1 ≤ tableDim) :
    (∑ i in Finset.range tableDim, ∑ j in Finset.range tableDim, N words i j)
      = words.flatten.length + words.length := by
  have hstep : (∑ i in Finset.range tableDim, ∑ j in Finset.range tableDim, N words i j)
      = ((words.map (idxPairs words)).flatten).length := by
    calc (∑ i in Finset.range tableDim, ∑ j in Finset.range tableDim, N words i j)
        = ∑ i in Finset.range tableDim, ∑ j in Finset.range tableDim,
            ((words.map (idxPairs words)).flatten).count (i, j) := by
          apply Finset.sum_congr rfl
          intro i _
          apply Finset.sum_congr rfl
          intro j _
          exact N_count words i j
      _ = ((words.map (idxPairs words)).flatten).length :=
          sum_count_of_bounded tableDim _ (idxPairs_bounded h)
  rw [hstep, List.length_flatten, List.map_map]
  have hlen : (List.length ∘ idxPairs words) = fun w => w.length + 1 := by
    funext w
    simp only [Function.comp_apply, idxPairs, List.length_map]
    exact pairs_length w
  rw [hlen, sum_length_add_one]

/-- C2 witness: the corpus `["ab"]` has 2 distinct characters, and the
table total is 3 = 2 characters + 1 word. -/
theorem count_matrix_total_sum_witness :
    (chars [['a', 'b']]).length + 1 ≤ tableDim ∧
      (∑ i in Finset.range tableDim, ∑ j in Finset.range tableDim, N [['a', 'b']] i j)
        = ([['a', 'b']] : List (List Char)).flatten.length + [['a', 'b']].length :=
  ⟨by decide, count_matrix_total_sum [['a', 'b']] (by decide)⟩

/-- C3: the forward mapping `stoi` and the inverse mapping `itos` are
mutually inverse: `stoi c = some i` iff `itos i = some c`. -/
theorem stoi_itos_inverse_bijection (words : List (List Char)) :
    (∀ c i, stoi words c = some i → itos words i = some c) ∧
    (∀ i c, itos words i = some c → stoi words c = some i) := by
  constructor
  · intro c i h
    by_cases hdot : c = '.'
    · subst hdot
      rw [stoi_dot] at h
      obtain rfl : (0 : ℕ) = i := by simpa using h
      simp [itos]
    · have hm : c ∈ chars words := by
        by_contra hm
        simp [stoi, hdot, hm] at h
      have hi : i = (chars words).indexOf c + 1 := by
        rw [stoi, if_neg hdot, if_pos hm] at h
        simpa using h.symm
      subst hi
      rw [itos, if_neg (by omega)]
      simp only [Nat.add_sub_cancel]
      rw [List.getElem?_indexOf hm]
      simp [hdot]
  · intro i c h
    rw [itos] at h
    by_cases hi : i = 0
    · rw [if_pos hi] at h
      obtain rfl : '.' = c := by simpa using h
      rw [hi, stoi_dot]
    · rw [if_neg hi] at h
      cases hg : (chars words)[i - 1]? with
      | none => rw [hg] at h; simp at h
      | some d =>
        rw [hg] at h
        by_cases hd : d = '.'
        · simp [hd] at h
        · simp only [if_neg hd, Option.some_bind] at h
          obtain rfl : d = c := by simpa using h
          have hlt : i - 1 < (chars words).length := by
            by_contra hge
            rw [List.getElem?_eq_none (by omega)] at hg
            exact Option.noConfusion hg
          have hval : (chars words)[i - 1] = d := by
            have := List.getElem?_eq_getElem hlt
            rw [hg] at this
            exact (Option.some_inj.mp this).symm
          have hmem : d ∈ chars words := hval ▸ List.getElem_mem hlt
          have hidx : (chars words).indexOf d = i - 1 := by
            have := List.indexOf_getElem (chars_nodup words) (i - 1) hlt
            rwa [hval] at this
          rw [stoi, if_neg hd, if_pos hmem, hidx]
          congr 1
          omega

/-- C3 witness: on the corpus `["a"]`, `stoi 'a' = some 1` round-trips
through `itos` and back. -/
theorem stoi_itos_inverse_bijection_witness :
    itos [['a']] 1 = some 'a' ∧ stoi [['a']] 'a' = some 1 :=
  ⟨(stoi_itos_inverse_bijection [['a']]).1 'a' 1 (by decide),
   (stoi_itos_inverse_bijection [['a']]).2 1 'a' (by decide)⟩

/-- C4: whenever row 0 of the count matrix has a positive sum, the
extracted probability vector sums to exactly 1 over exact arithmetic. -/
theorem prob_row_sums_to_one (words : List (List Char)) (h : 0 < row0sum words) :
    (∑ j in Finset.range tableDim, p words j) = 1 := by
  have hs : ((row0sum words : ℚ)) ≠ 0 := by
    exact_mod_cast Nat.pos_iff_ne_zero.mp h
  calc (∑ j in Finset.range tableDim, p words j)
      = (∑ j in Finset.range tableDim, (N words 0 j : ℚ)) / (row0sum words : ℚ) := by
        rw [Finset.sum_div]
        rfl
    _ = ((row0sum words : ℚ)) / (row0sum words : ℚ) := by
        rw [row0sum, Nat.cast_sum]
    _ = 1 := div_self hs

/-- C4 witness: the corpus `["a"]` has row-0 sum 1 > 0 and its probability
row sums to 1. -/
theorem prob_row_sums_to_one_witness :
    0 < row0sum [['a']] ∧ (∑ j in Finset.range tableDim, p [['a']] j) = 1 :=
  ⟨by decide, prob_row_sums_to_one [['a']] (by decide)⟩

/-- C5 counterexample: the claim says the count table is an
`(N+1) × (N+1)` matrix where `N` is the number of distinct characters of
the corpus; for the corpus `["a"]` that would be `2`, but the script
always allocates a `27 × 27` tensor. -/
theorem table_dim_not_vocab_size : tableDim ≠ (chars [['a']]).length + 1 := by
  decide

/-- C5 amended: the count table is a fixed `27 × 27` matrix; the boundary
symbol and every character that is counted have an assigned index before
counting starts (so no lookup fails), and whenever the corpus has at most
26 distinct characters every index pair written by the counter is within
the table's bounds. -/
theorem counter_safety_amended (words : List (List Char)) :
    tableDim = 27 ∧
    stoi words '.' = some 0 ∧
    (∀ w ∈ words, ∀ c ∈ w, (stoi words c).isSome = true) ∧
    ((chars words).length + 1 ≤ tableDim →
      ∀ w ∈ words, ∀ q ∈ pairs w,
        stoiFun words q.1 < tableDim ∧ stoiFun words q.2 < tableDim) := by
  refine ⟨rfl, stoi_dot words, ?_, ?_⟩
  · intro w hw c hc
    have hm : c ∈ chars words := mem_chars.mpr (List.mem_flatten.mpr ⟨w, hw, hc⟩)
    rw [stoi_eq_stoiFun (Or.inr hm)]
    rfl
  · intro h w hw q hq
    have hv := inVocab_of_mem_pairs hw hq
    exact ⟨stoiFun_lt h hv.1, stoiFun_lt h hv.2⟩

/-- C5 witness: on the corpus `["a"]`, the counted character `'a'` has an
assigned index and the first pair of the wrapped word writes inside the
table. -/
theorem counter_safety_amended_witness :
    (stoi [['a']] 'a').isSome = true ∧
      stoiFun [['a']] '.' < tableDim ∧ stoiFun [['a']] 'a' < tableDim :=
  ⟨(counter_safety_amended [['a']]).2.2.1 ['a'] (by decide) 'a' (by decide),
   (counter_safety_amended [['a']]).2.2.2 (by decide) ['a'] (by decide) ('.', 'a') (by decide)⟩

/-- C6 counterexample: on the empty corpus the run ends in a reported
error, and no division by zero is ever performed: the renderer's
annotation loop, which runs before the probability extractor, raises an
unhandled `KeyError` at cell `(0, 1)` — `itos[1]` is missing because the
vocabulary is empty — so the script stops before lines 28-29. -/
theorem empty_corpus_keyerror_reported :
    itos ([] : List (List Char)) 1 = none ∧ script ([] : List (List Char)) = none := by
  constructor
  · rfl
  · rfl

/-- C6 amended: for the empty corpus, row 0 of the count matrix sums to
zero and the extractor's division is unguarded, so the division — were it
reached — would be by zero; but the script never reaches it: the
renderer's annotation loop raises an unhandled `KeyError` first (`itos[1]`
does not exist), so the run stops with a reported error and no
undefined/NaN values are produced. -/
theorem empty_corpus_division_unreached :
    row0sum ([] : List (List Char)) = 0 ∧
    (∀ j, p ([] : List (List Char)) j = (N [] 0 j : ℚ) / 0) ∧
    script ([] : List (List Char)) = none := by
  have h0 : row0sum ([] : List (List Char)) = 0 := by
    rw [row0sum]
    apply Finset.sum_eq_zero
    intro j _
    rfl
  refine ⟨h0, ?_, rfl⟩
  intro j
  rw [p, h0]
  norm_num

/-- C7: for the corpus consisting of the single one-character word "a",
the count matrix holds 1 at `[boundary, a] = [0, 1]` and at
`[a, boundary] = [1, 0]`, and 0 everywhere else in the table. -/
theorem count_matrix_single_word_a :
    stoi [['a']] '.' = some 0 ∧ stoi [['a']] 'a' = some 1 ∧
    ∀ i j : Fin tableDim,
      N [['a']] i.val j.val
        = if (i.val = 0 ∧ j.val = 1) ∨ (i.val = 1 ∧ j.val = 0) then 1 else 0 := by
  decide

/-- C8: for the corpus `["ab", "ab"]`, the count matrix holds 2 at
`[boundary, a] = [0, 1]`, at `[a, b] = [1, 2]` and at
`[b, boundary] = [2, 0]`, and 0 everywhere else in the table. -/
theorem count_matrix_abab :
    stoi [['a', 'b'], ['a', 'b']] '.' = some 0 ∧
    stoi [['a', 'b'], ['a', 'b']] 'a' = some 1 ∧
    stoi [['a', 'b'], ['a', 'b']] 'b' = some 2 ∧
    ∀ i j : Fin tableDim,
      N [['a', 'b'], ['a', 'b']] i.val j.val
        = if (i.val = 0 ∧ j.val = 1) ∨ (i.val = 1 ∧ j.val = 2) ∨ (i.val = 2 ∧ j.val = 0)
          then 2 else 0 := by
  decide

/-- C9: processing an empty word performs exactly one increment, at cell
`[0, 0]` (a boundary-to-boundary transition); consequently, whenever the
corpus contains an empty word the extracted probability vector gives the
boundary symbol strictly positive starting probability. -/
theorem empty_word_boundary_transition (words : List (List Char)) :
    (∀ f, processWord words f [] = countStep f 0 0) ∧
    ([] ∈ words → 0 < p words 0) := by
  constructor
  · intro f
    have hpairs : pairs ([] : List Char) = [('.', '.')] := rfl
    rw [processWord, hpairs]
    simp [stoiFun]
  · intro hmem
    have hval : (idxPairs words []).count (0, 0) = 1 := by
      have hip : idxPairs words [] = [(0, 0)] := by
        simp [idxPairs, pairs, wrapped, stoiFun]
      rw [hip]
      rfl
    have h00 : 1 ≤ N words 0 0 := by
      rw [N_sum]
      have hmem' : (1 : ℕ) ∈ words.map fun w => (idxPairs words w).count (0, 0) := by
        have := List.mem_map_of_mem (fun w => (idxPairs words w).count (0, 0)) hmem
        simpa [hval] using this
      exact List.single_le_sum (fun x _ => Nat.zero_le x) 1 hmem'
    have hrow : N words 0 0 ≤ row0sum words := by
      rw [row0sum]
      exact Finset.single_le_sum (fun i _ => Nat.zero_le _)
        (Finset.mem_range.mpr (by rw [tableDim]; omega))
    rw [p]
    apply div_pos
    · exact_mod_cast h00
    · exact_mod_cast lt_of_lt_of_le h00 hrow

/-- C9 witness: on the corpus `[""]` (one empty line), processing the empty
word increments only cell `[0, 0]`, and the boundary symbol gets positive
starting probability. -/
theorem empty_word_boundary_transition_witness :
    processWord [[]] (fun _ _ => 0) [] = countStep (fun _ _ => 0) 0 0 ∧ 0 < p [[]] 0 :=
  ⟨(empty_word_boundary_transition [[]]).1 (fun _ _ => 0),
   (empty_word_boundary_transition [[]]).2 (by decide)⟩

/-- C10: the count matrix, and hence the probability vector, is invariant
under any permutation of the input word list. -/
theorem count_matrix_perm_invariant (words words' : List (List Char))
    (h : words.Perm words') :
    N words = N words' ∧ p words = p words' := by
  have hchars := chars_perm_congr h
  have hstoi : stoiFun words = stoiFun words' := by
    funext c
    rw [stoiFun, stoiFun, hchars]
  have hidx : idxPairs words = idxPairs words' := by
    funext w
    rw [idxPairs, idxPairs, hstoi]
  have hN : N words = N words' := by
    funext i j
    rw [N_count, N_count, hidx]
    have hperm : ((words.map (idxPairs words')).flatten).Perm
        ((words'.map (idxPairs words')).flatten) :=
      flatten_perm (h.map (idxPairs words'))
    rw [List.count_eq_countP, List.count_eq_countP]
    exact hperm.countP_eq _
  refine ⟨hN, ?_⟩
  funext j
  rw [p, p, row0sum, row0sum, hN]

/-- C10 witness: swapping the two lines of the corpus `["a", "b"]` leaves
both the count matrix and the probability vector unchanged. -/
theorem count_matrix_perm_invariant_witness :
    N [['a'], ['b']] = N [['b'], ['a']] ∧ p [['a'], ['b']] = p [['b'], ['a']] :=
  count_matrix_perm_invariant [['a'], ['b']] [['b'], ['a']] (by decide)

end Makemore
